import Mathlib

/-
Shallow embedding of the depth-bounded reverse-reachability search of
cmd/poc1/command/root.go (package command), together with proofs about it.

The graph is modelled as the parsed structure the code consumes: a list of
node names and a list of directed edges (source, destination), both possibly
carrying surrounding quote characters that normalizeNodeName strips.

searchAtDepth in the source recurses; each recursion level strictly grows the
visited set with at least one canonical edge-source name, so the recursion
depth is bounded by the number of distinct canonical edge sources.  The Lean
model therefore carries a fuel argument set to that bound plus one, which is
never exhausted on the traces the source can perform.
-/

namespace PoC1

structure Edge where
  src : String
  dst : String
deriving DecidableEq, Repr

structure Graph where
  nodes : List String
  edges : List Edge
deriving DecidableEq, Repr

/-- Model of normalizeNodeName: strings.Trim(name, quote) removes every
leading and trailing quote character. -/
def normalizeNodeName (name : String) : String :=
  String.mk (((name.data.dropWhile (fun c => c == '"')).reverse.dropWhile
    (fun c => c == '"')).reverse)

/-- Model of findExactPackage: case-sensitive exact lookup over canonical
node names, returning the canonical name on success. -/
def findExactPackage (graph : Graph) (packageName : String) : Option String :=
  (graph.nodes.find? (fun n => decide (normalizeNodeName n = packageName))).map
    normalizeNodeName

/-- The edge loop of findDirectDependents, with its local visited map that
deduplicates by canonical source name and appends the raw source spelling. -/
def fddLoop (edges : List Edge) (targetNodeName : String)
    (visited : List String) : List String :=
  match edges with
  | [] => []
  | e :: rest =>
    if normalizeNodeName e.dst = targetNodeName then
      if normalizeNodeName e.src ∈ visited then
        fddLoop rest targetNodeName visited
      else
        e.src :: fddLoop rest targetNodeName (normalizeNodeName e.src :: visited)
    else
      fddLoop rest targetNodeName visited

/-- Model of findDirectDependents. -/
def findDirectDependents (graph : Graph) (targetNodeName : String) :
    List String :=
  fddLoop graph.edges targetNodeName []

/-- Specification-side description of the Accessor output, for comparison
with findDirectDependents: walk the raw source spellings in declaration
order and keep exactly the first spelling of each canonical name not already
in seen, dropping every later duplicate. -/
def keepFirstByCanonical (names : List String) (seen : List String) :
    List String :=
  match names with
  | [] => []
  | n :: rest =>
    if normalizeNodeName n ∈ seen then keepFirstByCanonical rest seen
    else n :: keepFirstByCanonical rest (normalizeNodeName n :: seen)

structure DependentWithDepth where
  NodeName : String
  Depth : Int
deriving DecidableEq, Repr

/-- The first loop of searchAtDepth: normalize each direct dependent, skip
the already visited ones, mark the rest visited, record them at the given
depth and put them on the queue.  Returns (visited, new records, queue). -/
def markDependents (deps : List String) (depth : Int) (visited : List String) :
    List String × List DependentWithDepth × List String :=
  match deps with
  | [] => (visited, [], [])
  | d :: rest =>
    if normalizeNodeName d ∈ visited then markDependents rest depth visited
    else
      let m := markDependents rest depth (normalizeNodeName d :: visited)
      (m.1, ⟨normalizeNodeName d, depth⟩ :: m.2.1, normalizeNodeName d :: m.2.2)

/-- The second loop of searchAtDepth: walk the queue, re-normalizing each
entry and running the continuation f (the recursive search one level deeper)
on it, threading the visited set and concatenating the records. -/
def goQueue (f : String → List String → List String × List DependentWithDepth)
    (queue : List String) (visited : List String) :
    List String × List DependentWithDepth :=
  match queue with
  | [] => (visited, [])
  | q :: rest =>
    let s1 := f (normalizeNodeName (normalizeNodeName q)) visited
    let s2 := goQueue f rest s1.1
    (s2.1, s1.2 ++ s2.2)

/-- Model of searchAtDepth.  The source recursion terminates because every
level marks at least one fresh canonical source name visited; the fuel
argument makes that measure explicit. -/
def searchAtDepth : Nat → Graph → String → Int → Int → List String →
    List String × List DependentWithDepth
  | 0, _, _, _, _, visited => (visited, [])
  | fuel + 1, graph, targetNodeName, currentDepth, maxDepth, visited =>
    if maxDepth > 0 ∧ currentDepth ≥ maxDepth then (visited, [])
    else
      let m := markDependents (findDirectDependents graph targetNodeName)
        (currentDepth + 1) visited
      let s := goQueue
        (fun t v => searchAtDepth fuel graph t (currentDepth + 1) maxDepth v)
        m.2.2 m.1
      (s.1, m.2.1 ++ s.2)

/-- The canonical source names of all edges: every name the search can ever
record or mark visited beyond its initial seeds is drawn from this list. -/
def sourceNames (graph : Graph) : List String :=
  graph.edges.map (fun e => normalizeNodeName e.src)

/-- Fuel sufficient for every trace of the source recursion. -/
def searchFuel (graph : Graph) : Nat :=
  (sourceNames graph).dedup.length + 1

/-- The visited set pre-seeded by findDependentsWithDepth: the literal
sentinel "RPM-Packages" and the canonical target name. -/
def initialVisited (targetNodeName : String) : List String :=
  ["RPM-Packages", normalizeNodeName targetNodeName]

/-- Model of findDependentsWithDepth. -/
def findDependentsWithDepth (graph : Graph) (targetNodeName : String)
    (maxDepth : Int) : List DependentWithDepth :=
  (searchAtDepth (searchFuel graph) graph targetNodeName 0 maxDepth
    (initialVisited targetNodeName)).2

/-- actualMaxDepth as computed in Run: the running maximum of the depths. -/
def actualMaxDepth (records : List DependentWithDepth) : Int :=
  records.foldl (fun acc dep => if dep.Depth > acc then dep.Depth else acc) 0

/-- The numbered member list printed inside one depth group of Run. -/
def numberFrom (i : Nat) (names : List String) : List (Nat × String) :=
  match names with
  | [] => []
  | n :: rest => (i, n) :: numberFrom (i + 1) rest

/-- The report loop of Run: for each depth from 1 to actualMaxDepth, skip
empty groups and emit (depth, member count, numbered member names). -/
def reportGroups (records : List DependentWithDepth) :
    List (Int × Nat × List (Nat × String)) :=
  ((List.range (actualMaxDepth records).toNat).map
    (fun (i : Nat) => (i : Int) + 1)).filterMap
    (fun depth =>
      let deps := records.filter (fun r => decide (r.Depth = depth))
      if deps.isEmpty then none
      else some (depth, deps.length, numberFrom 1 (deps.map (fun r => r.NodeName))))

/-- The core of Run after the collaborator parsing steps: fail with the
not-found message when the target has no exact match, otherwise search and
report. -/
def runCore (graph : Graph) (targetName : String) (maxDepth : Int) :
    Except String (List (Int × Nat × List (Nat × String))) :=
  match findExactPackage graph targetName with
  | none =>
    Except.error (targetName ++ " package is Not Found in your SBOM DOT File.")
  | some _ =>
    Except.ok (reportGroups (findDependentsWithDepth graph targetName maxDepth))

/-- Measure for the bound argument: how many canonical edge-source names are
not yet visited.  Every recursion level of the search visits at least one. -/
def unvisited (graph : Graph) (visited : List String) : Nat :=
  ((sourceNames graph).toFinset \ visited.toFinset).card

/-- One backward step of reachability: an edge whose canonical destination is
a and canonical source is b lets the reverse search step from a to b. -/
def revStep (graph : Graph) (a b : String) : Bool :=
  graph.edges.any (fun e =>
    decide (normalizeNodeName e.dst = a) && decide (normalizeNodeName e.src = b))

/-- Graph showing the non-BFS depth assignment: D is two reverse steps from
T via B but is discovered at depth 3 through A, C first. -/
def bugGraph1 : Graph :=
  ⟨["T", "A", "B", "C", "D"],
   [⟨"A", "T"⟩, ⟨"B", "T"⟩, ⟨"C", "A"⟩, ⟨"D", "C"⟩, ⟨"D", "B"⟩]⟩

/-- Graph showing the non-monotone record order: the deep chain under A is
emitted before the depth-2 dependent F of the sibling B. -/
def bugGraph2 : Graph :=
  ⟨["T", "A", "B", "C", "E", "F"],
   [⟨"A", "T"⟩, ⟨"B", "T"⟩, ⟨"C", "A"⟩, ⟨"E", "C"⟩, ⟨"F", "B"⟩]⟩

/-- Graph showing the incompleteness under a positive bound: Y is three
reverse steps from T via B, X, but the traversal burns the bound on the
longer first path to X and never reaches Y. -/
def bugGraph3 : Graph :=
  ⟨["T", "A", "B", "C", "X", "Y"],
   [⟨"A", "T"⟩, ⟨"B", "T"⟩, ⟨"C", "A"⟩, ⟨"X", "C"⟩, ⟨"X", "B"⟩, ⟨"Y", "X"⟩]⟩

/-- Graph with a duplicated edge, for the accessor deduplication behaviour. -/
def dupGraph : Graph :=
  ⟨["T", "A"], [⟨"A", "T"⟩, ⟨"A", "T"⟩]⟩

example : normalizeNodeName (String.mk ['"', 'A', '"']) = "A" := by decide

example : findDirectDependents bugGraph1 "T" = ["A", "B"] := by decide

example : findDependentsWithDepth bugGraph1 "T" (-1) =
    [⟨"A", 1⟩, ⟨"B", 1⟩, ⟨"C", 2⟩, ⟨"D", 3⟩] := by decide

example : findDependentsWithDepth bugGraph2 "T" (-1) =
    [⟨"A", 1⟩, ⟨"B", 1⟩, ⟨"C", 2⟩, ⟨"E", 3⟩, ⟨"F", 2⟩] := by decide

example : findDependentsWithDepth bugGraph3 "T" 3 =
    [⟨"A", 1⟩, ⟨"B", 1⟩, ⟨"C", 2⟩, ⟨"X", 3⟩] := by decide

example : findDependentsWithDepth bugGraph3 "T" (-1) =
    [⟨"A", 1⟩, ⟨"B", 1⟩, ⟨"C", 2⟩, ⟨"X", 3⟩, ⟨"Y", 4⟩] := by decide

example : findDirectDependents dupGraph "T" = ["A"] := by decide

example : findDirectDependents
    ⟨["T", "A"], [⟨"A", "T"⟩, ⟨String.mk ['"', 'A', '"'], "T"⟩]⟩ "T" =
    ["A"] := by decide

example : findDirectDependents
    ⟨["T", "A"], [⟨String.mk ['"', 'A', '"'], "T"⟩, ⟨"A", "T"⟩]⟩ "T" =
    [String.mk ['"', 'A', '"']] := by decide

example : reportGroups [⟨"A", 1⟩, ⟨"B", 1⟩, ⟨"C", 2⟩] =
    [(1, 2, [(1, "A"), (2, "B")]), (2, 1, [(1, "C")])] := by decide

example : runCore bugGraph1 "Z" (-1) =
    Except.error "Z package is Not Found in your SBOM DOT File." := rfl

theorem markDependents_visited_mono (deps : List String) (depth : Int) :
    ∀ visited, ∀ x ∈ visited, x ∈ (markDependents deps depth visited).1 := by
  induction deps with
  | nil => intro v x hx; simpa [markDependents] using hx
  | cons d rest ih =>
    intro v x hx
    by_cases h : normalizeNodeName d ∈ v
    · simpa [markDependents, h] using ih v x hx
    · simpa [markDependents, h] using
        ih (normalizeNodeName d :: v) x (List.mem_cons_of_mem _ hx)

theorem markDependents_records (deps : List String) (depth : Int) :
    ∀ visited, ∀ r ∈ (markDependents deps depth visited).2.1,
      r.NodeName ∉ visited ∧ r.NodeName ∈ (markDependents deps depth visited).1 ∧
        r.Depth = depth := by
  induction deps with
  | nil => intro v r hr; simp [markDependents] at hr
  | cons d rest ih =>
    intro v r hr
    by_cases h : normalizeNodeName d ∈ v
    · simp only [markDependents, if_pos h] at hr ⊢
      exact ih v r hr
    · simp only [markDependents, if_neg h] at hr ⊢
      rcases List.mem_cons.1 hr with hr | hr
      · subst hr
        exact ⟨h, markDependents_visited_mono rest depth _ _ (List.mem_cons_self _ _), rfl⟩
      · obtain ⟨h1, h2, h3⟩ := ih (normalizeNodeName d :: v) r hr
        exact ⟨fun hv => h1 (List.mem_cons_of_mem _ hv), h2, h3⟩

theorem markDependents_queue_eq (deps : List String) (depth : Int) :
    ∀ visited, (markDependents deps depth visited).2.2 =
      (markDependents deps depth visited).2.1.map (fun r => r.NodeName) := by
  induction deps with
  | nil => intro v; simp [markDependents]
  | cons d rest ih =>
    intro v
    by_cases h : normalizeNodeName d ∈ v
    · simp only [markDependents, if_pos h]; exact ih v
    · simp only [markDependents, if_neg h, List.map_cons]
      exact congrArg _ (ih _)

theorem markDependents_nodup (deps : List String) (depth : Int) :
    ∀ visited, ((markDependents deps depth visited).2.1.map
      (fun r => r.NodeName)).Nodup := by
  induction deps with
  | nil => intro v; simp [markDependents]
  | cons d rest ih =>
    intro v
    by_cases h : normalizeNodeName d ∈ v
    · simp only [markDependents, if_pos h]; exact ih v
    · simp only [markDependents, if_neg h, List.map_cons, List.nodup_cons]
      refine ⟨?_, ih _⟩
      intro hmem
      obtain ⟨r, hr, hname⟩ := List.mem_map.1 hmem
      have := (markDependents_records rest depth _ r hr).1
      exact this (hname ▸ List.mem_cons_self _ _)

theorem goQueue_visited_mono
    (f : String → List String → List String × List DependentWithDepth)
    (hf : ∀ t v, ∀ x ∈ v, x ∈ (f t v).1) :
    ∀ queue visited, ∀ x ∈ visited, x ∈ (goQueue f queue visited).1 := by
  intro queue
  induction queue with
  | nil => intro v x hx; simpa [goQueue] using hx
  | cons q rest ih =>
    intro v x hx
    simp only [goQueue]
    exact ih _ x (hf _ _ x hx)

theorem goQueue_fresh
    (f : String → List String → List String × List DependentWithDepth)
    (hmono : ∀ t v, ∀ x ∈ v, x ∈ (f t v).1)
    (hfresh : ∀ t v, ∀ r ∈ (f t v).2,
      r.NodeName ∉ v ∧ r.NodeName ∈ (f t v).1) :
    ∀ queue visited, ∀ r ∈ (goQueue f queue visited).2,
      r.NodeName ∉ visited ∧ r.NodeName ∈ (goQueue f queue visited).1 := by
  intro queue
  induction queue with
  | nil => intro v r hr; simp [goQueue] at hr
  | cons q rest ih =>
    intro v r hr
    simp only [goQueue, List.mem_append] at hr ⊢
    rcases hr with h1 | h2
    · obtain ⟨ha, hb⟩ := hfresh _ _ r h1
      exact ⟨ha, goQueue_visited_mono f hmono rest _ _ hb⟩
    · obtain ⟨ha, hb⟩ := ih _ r h2
      exact ⟨fun hv => ha (hmono _ _ _ hv), hb⟩

theorem goQueue_nodup
    (f : String → List String → List String × List DependentWithDepth)
    (hmono : ∀ t v, ∀ x ∈ v, x ∈ (f t v).1)
    (hfresh : ∀ t v, ∀ r ∈ (f t v).2,
      r.NodeName ∉ v ∧ r.NodeName ∈ (f t v).1)
    (hnodup : ∀ t v, ((f t v).2.map (fun r => r.NodeName)).Nodup) :
    ∀ queue visited,
      ((goQueue f queue visited).2.map (fun r => r.NodeName)).Nodup := by
  intro queue
  induction queue with
  | nil => intro v; simp [goQueue]
  | cons q rest ih =>
    intro v
    simp only [goQueue, List.map_append, List.nodup_append]
    refine ⟨hnodup _ _, ih _, ?_⟩
    intro a ha hb
    obtain ⟨r, hr, hname⟩ := List.mem_map.1 ha
    obtain ⟨r2, hr2, hname2⟩ := List.mem_map.1 hb
    have h1 := (hfresh _ _ r hr).2
    have h2 := (goQueue_fresh f hmono hfresh rest _ r2 hr2).1
    exact h2 (hname2 ▸ hname ▸ h1)

theorem searchAtDepth_visited_mono :
    ∀ (fuel : Nat) (graph : Graph) (targetNodeName : String)
      (currentDepth maxDepth : Int) (visited : List String),
      ∀ x ∈ visited,
        x ∈ (searchAtDepth fuel graph targetNodeName currentDepth maxDepth
          visited).1 := by
  intro fuel
  induction fuel with
  | zero => intro g t c K v x hx; simpa [searchAtDepth] using hx
  | succ fuel ih =>
    intro g t c K v x hx
    by_cases hguard : K > 0 ∧ c ≥ K
    · simpa [searchAtDepth, hguard] using hx
    · simp only [searchAtDepth, if_neg hguard]
      exact goQueue_visited_mono _ (fun t2 v2 => ih g t2 (c + 1) K v2) _ _ x
        (markDependents_visited_mono _ _ _ x hx)

theorem searchAtDepth_fresh :
    ∀ (fuel : Nat) (graph : Graph) (targetNodeName : String)
      (currentDepth maxDepth : Int) (visited : List String),
      ∀ r ∈ (searchAtDepth fuel graph targetNodeName currentDepth maxDepth
          visited).2,
        r.NodeName ∉ visited ∧
          r.NodeName ∈ (searchAtDepth fuel graph targetNodeName currentDepth
            maxDepth visited).1 := by
  intro fuel
  induction fuel with
  | zero => intro g t c K v r hr; simp [searchAtDepth] at hr
  | succ fuel ih =>
    intro g t c K v r hr
    by_cases hguard : K > 0 ∧ c ≥ K
    · simp [searchAtDepth, hguard] at hr
    · simp only [searchAtDepth, if_neg hguard, List.mem_append] at hr ⊢
      rcases hr with h1 | h2
      · obtain ⟨ha, hb, _⟩ := markDependents_records _ _ _ r h1
        exact ⟨ha, goQueue_visited_mono _
          (fun t2 v2 => searchAtDepth_visited_mono fuel g t2 (c + 1) K v2) _ _ _ hb⟩
      · obtain ⟨ha, hb⟩ := goQueue_fresh _
          (fun t2 v2 => searchAtDepth_visited_mono fuel g t2 (c + 1) K v2)
          (fun t2 v2 => ih g t2 (c + 1) K v2) _ _ r h2
        exact ⟨fun hv => ha (markDependents_visited_mono _ _ _ _ hv), hb⟩

theorem searchAtDepth_nodup :
    ∀ (fuel : Nat) (graph : Graph) (targetNodeName : String)
      (currentDepth maxDepth : Int) (visited : List String),
      ((searchAtDepth fuel graph targetNodeName currentDepth maxDepth
        visited).2.map (fun r => r.NodeName)).Nodup := by
  intro fuel
  induction fuel with
  | zero => intro g t c K v; simp [searchAtDepth]
  | succ fuel ih =>
    intro g t c K v
    by_cases hguard : K > 0 ∧ c ≥ K
    · simp [searchAtDepth, hguard]
    · simp only [searchAtDepth, if_neg hguard, List.map_append, List.nodup_append]
      refine ⟨markDependents_nodup _ _ _, goQueue_nodup _
        (fun t2 v2 => searchAtDepth_visited_mono fuel g t2 (c + 1) K v2)
        (fun t2 v2 => searchAtDepth_fresh fuel g t2 (c + 1) K v2)
        (fun t2 v2 => ih g t2 (c + 1) K v2) _ _, ?_⟩
      intro a ha hb
      obtain ⟨r, hr, hname⟩ := List.mem_map.1 ha
      obtain ⟨r2, hr2, hname2⟩ := List.mem_map.1 hb
      have h1 := (markDependents_records _ _ _ r hr).2.1
      have h2 := (goQueue_fresh _
        (fun t2 v2 => searchAtDepth_visited_mono fuel g t2 (c + 1) K v2)
        (fun t2 v2 => searchAtDepth_fresh fuel g t2 (c + 1) K v2) _ _ r2 hr2).1
      exact h2 (hname2 ▸ hname ▸ h1)

theorem findExactPackage_eq_none_iff (graph : Graph) (packageName : String) :
    findExactPackage graph packageName = none ↔
      ∀ n ∈ graph.nodes, normalizeNodeName n ≠ packageName := by
  simp [findExactPackage, List.find?_eq_none]

/-- C1: the claim requires every reachable node to be recorded at the length
of its shortest reverse path for an unbounded search, but on bugGraph1 with
target T the node D is two reverse steps away (T to B to D) and is recorded
at depth 3, because the traversal exhausts the branch through A and C before
visiting the sibling branch through B. -/
theorem C1_depth_not_shortest_on_bugGraph1 :
    findDependentsWithDepth bugGraph1 "T" (-1) =
      [⟨"A", 1⟩, ⟨"B", 1⟩, ⟨"C", 2⟩, ⟨"D", 3⟩] ∧
    revStep bugGraph1 "T" "B" = true ∧ revStep bugGraph1 "B" "D" = true := by
  decide

/-- C2: the claim requires the returned record sequence to have non-decreasing
depths, but on bugGraph2 with target T the unbounded search returns depths
1, 1, 2, 3, 2: the record for E at depth 3 precedes the record for F at
depth 2, so the sequence is not pairwise non-decreasing. -/
theorem C2_depths_not_monotone_on_bugGraph2 :
    findDependentsWithDepth bugGraph2 "T" (-1) =
      [⟨"A", 1⟩, ⟨"B", 1⟩, ⟨"C", 2⟩, ⟨"E", 3⟩, ⟨"F", 2⟩] ∧
    (findDependentsWithDepth bugGraph2 "T" (-1)).get? 3 = some ⟨"E", 3⟩ ∧
    (findDependentsWithDepth bugGraph2 "T" (-1)).get? 4 = some ⟨"F", 2⟩ := by
  decide

/-- C3: the claim requires every node whose shortest reverse path length is
at most the positive bound K to appear in the result, but on bugGraph3 with
target T and bound 3 the node Y, reachable in three reverse steps T to B to
X to Y, is absent: the first path explored reaches X at depth 3, the bound
stops expansion below X, and the shorter path through B finds X already
visited. -/
theorem C3_bounded_search_misses_reachable_node :
    findDependentsWithDepth bugGraph3 "T" 3 =
      [⟨"A", 1⟩, ⟨"B", 1⟩, ⟨"C", 2⟩, ⟨"X", 3⟩] ∧
    revStep bugGraph3 "T" "B" = true ∧ revStep bugGraph3 "B" "X" = true ∧
    revStep bugGraph3 "X" "Y" = true ∧
    ((findDependentsWithDepth bugGraph3 "T" 3).map
      (fun r => r.NodeName)).contains "Y" = false := by
  decide

/-- C4: for every graph, target node and depth bound, no node name appears
more than once across the records returned by findDependentsWithDepth: the
search marks a name visited at the moment it records it and never records a
visited name again. -/
theorem C4_no_duplicate_names (graph : Graph) (targetNodeName : String)
    (maxDepth : Int) :
    ((findDependentsWithDepth graph targetNodeName maxDepth).map
      (fun r => r.NodeName)).Nodup :=
  searchAtDepth_nodup _ _ _ _ _ _

/-- C5: the canonical target name and the synthetic root sentinel name are
both pre-seeded into the visited set findDependentsWithDepth starts from,
and consequently no returned record carries either name, for every graph,
target and bound, cycles and self-loops included. -/
theorem C5_target_and_sentinel_never_recorded (graph : Graph)
    (targetNodeName : String) (maxDepth : Int) :
    "RPM-Packages" ∈ initialVisited targetNodeName ∧
    normalizeNodeName targetNodeName ∈ initialVisited targetNodeName ∧
    ∀ r ∈ findDependentsWithDepth graph targetNodeName maxDepth,
      r.NodeName ≠ normalizeNodeName targetNodeName ∧
        r.NodeName ≠ "RPM-Packages" := by
  refine ⟨by simp [initialVisited], by simp [initialVisited], ?_⟩
  intro r hr
  have h := (searchAtDepth_fresh _ _ _ _ _ _ r hr).1
  constructor
  · intro he
    exact h (by simp [initialVisited, he])
  · intro he
    exact h (by simp [initialVisited, he])

/-- C6: the core of Run fails exactly when no node of the graph has canonical
name equal (case-sensitively) to the target, the error is the single
not-found message, and on that error no search results are produced; when a
node matches, Run succeeds with the report. -/
theorem C6_not_found_is_only_core_error (graph : Graph) (targetName : String)
    (maxDepth : Int) :
    ((∃ msg, runCore graph targetName maxDepth = Except.error msg) ↔
      ¬ ∃ n ∈ graph.nodes, normalizeNodeName n = targetName) ∧
    (findExactPackage graph targetName = none →
      runCore graph targetName maxDepth = Except.error
        (targetName ++ " package is Not Found in your SBOM DOT File.")) ∧
    (findExactPackage graph targetName ≠ none →
      runCore graph targetName maxDepth = Except.ok
        (reportGroups (findDependentsWithDepth graph targetName maxDepth))) := by
  rcases hfind : findExactPackage graph targetName with _ | found
  · have hnone := (findExactPackage_eq_none_iff graph targetName).1 hfind
    refine ⟨⟨fun _ => ?_, fun _ => ?_⟩, fun _ => by simp [runCore, hfind], ?_⟩
    · rintro ⟨n, hn, hname⟩
      exact hnone n hn hname
    · exact ⟨targetName ++ " package is Not Found in your SBOM DOT File.",
        by simp [runCore, hfind]⟩
    · intro hne
      exact absurd rfl hne
  · refine ⟨⟨?_, ?_⟩, ?_, ?_⟩
    · rintro ⟨msg, hmsg⟩
      simp [runCore, hfind] at hmsg
    · intro hno
      exfalso
      rcases hempty : graph.nodes.find?
          (fun n => decide (normalizeNodeName n = targetName)) with _ | n
      · simp [findExactPackage, hempty] at hfind
      · have := List.find?_some hempty
        exact hno ⟨n, List.mem_of_find?_eq_some hempty, by simpa using this⟩
    · intro habs
      simp at habs
    · intro _
      simp [runCore, hfind]

theorem unvisited_le_of_subset (graph : Graph) (v v2 : List String)
    (h : ∀ x ∈ v, x ∈ v2) : unvisited graph v2 ≤ unvisited graph v := by
  apply Finset.card_le_card
  intro x hx
  simp only [Finset.mem_sdiff, List.mem_toFinset] at hx ⊢
  exact ⟨hx.1, fun hv => hx.2 (h x hv)⟩

theorem unvisited_cons_add_one_le (graph : Graph) (v : List String) (n : String)
    (hn : n ∈ sourceNames graph) (hv : n ∉ v) :
    unvisited graph (n :: v) + 1 ≤ unvisited graph v := by
  have hmem : n ∈ (sourceNames graph).toFinset \ v.toFinset := by
    simp [List.mem_toFinset, hn, hv]
  have hpos : 0 < ((sourceNames graph).toFinset \ v.toFinset).card :=
    Finset.card_pos.2 ⟨n, hmem⟩
  have hsub : (sourceNames graph).toFinset \ (n :: v).toFinset ⊆
      ((sourceNames graph).toFinset \ v.toFinset).erase n := by
    intro x hx
    simp only [Finset.mem_sdiff, List.mem_toFinset, List.mem_cons,
      Finset.mem_erase] at hx ⊢
    tauto
  have hcard := Finset.card_le_card hsub
  rw [Finset.card_erase_of_mem hmem] at hcard
  unfold unvisited
  omega

theorem unvisited_eq_zero_mem (graph : Graph) (v : List String)
    (h : unvisited graph v = 0) :
    ∀ x ∈ sourceNames graph, x ∈ v := by
  intro x hx
  have hempty := Finset.card_eq_zero.1 h
  by_contra hv
  have : x ∈ (sourceNames graph).toFinset \ v.toFinset := by
    simp [List.mem_toFinset, hx, hv]
  rw [hempty] at this
  exact absurd this (Finset.not_mem_empty x)

theorem markDependents_unvisited (graph : Graph) (depth : Int) :
    ∀ (deps : List String) (v : List String),
      (∀ d ∈ deps, normalizeNodeName d ∈ sourceNames graph) →
      unvisited graph (markDependents deps depth v).1 +
        (markDependents deps depth v).2.2.length ≤ unvisited graph v := by
  intro deps
  induction deps with
  | nil => intro v _; simp [markDependents]
  | cons d rest ih =>
    intro v hdeps
    by_cases h : normalizeNodeName d ∈ v
    · simp only [markDependents, if_pos h]
      exact ih v (fun x hx => hdeps x (List.mem_cons_of_mem _ hx))
    · simp only [markDependents, if_neg h, List.length_cons]
      have h1 := ih (normalizeNodeName d :: v)
        (fun x hx => hdeps x (List.mem_cons_of_mem _ hx))
      have h2 := unvisited_cons_add_one_le graph v (normalizeNodeName d)
        (hdeps d (List.mem_cons_self _ _)) h
      omega

theorem markDependents_all_visited (depth : Int) :
    ∀ (deps : List String) (v : List String),
      (∀ d ∈ deps, normalizeNodeName d ∈ v) →
      markDependents deps depth v = (v, [], []) := by
  intro deps
  induction deps with
  | nil => intro v _; simp [markDependents]
  | cons d rest ih =>
    intro v h
    simp only [markDependents, if_pos (h d (List.mem_cons_self _ _))]
    exact ih v (fun x hx => h x (List.mem_cons_of_mem _ hx))

theorem fddLoop_src (targetNodeName : String) :
    ∀ (edges : List Edge) (visited : List String),
      ∀ x ∈ fddLoop edges targetNodeName visited,
        ∃ e ∈ edges, x = e.src ∧ normalizeNodeName e.dst = targetNodeName := by
  intro edges
  induction edges with
  | nil => intro v x hx; simp [fddLoop] at hx
  | cons e rest ih =>
    intro v x hx
    by_cases hd : normalizeNodeName e.dst = targetNodeName
    · by_cases hs : normalizeNodeName e.src ∈ v
      · simp only [fddLoop, if_pos hd, if_pos hs] at hx
        obtain ⟨e2, he2, hx2⟩ := ih v x hx
        exact ⟨e2, List.mem_cons_of_mem _ he2, hx2⟩
      · simp only [fddLoop, if_pos hd, if_neg hs] at hx
        rcases List.mem_cons.1 hx with hx | hx
        · exact ⟨e, List.mem_cons_self _ _, hx, hd⟩
        · obtain ⟨e2, he2, hx2⟩ := ih _ x hx
          exact ⟨e2, List.mem_cons_of_mem _ he2, hx2⟩
    · simp only [fddLoop, if_neg hd] at hx
      obtain ⟨e2, he2, hx2⟩ := ih v x hx
      exact ⟨e2, List.mem_cons_of_mem _ he2, hx2⟩

theorem findDirectDependents_src (graph : Graph) (targetNodeName : String) :
    ∀ x ∈ findDirectDependents graph targetNodeName,
      normalizeNodeName x ∈ sourceNames graph := by
  intro x hx
  obtain ⟨e, he, hx2, _⟩ := fddLoop_src targetNodeName graph.edges [] x hx
  subst hx2
  exact List.mem_map.2 ⟨e, he, rfl⟩

theorem goQueue_eq_of_inv
    (f1 f2 : String → List String → List String × List DependentWithDepth)
    (Inv : List String → Prop)
    (hf : ∀ t v, Inv v → f1 t v = f2 t v)
    (hpres : ∀ t v, Inv v → Inv (f2 t v).1) :
    ∀ queue visited, Inv visited →
      goQueue f1 queue visited = goQueue f2 queue visited := by
  intro queue
  induction queue with
  | nil => intro v _; rfl
  | cons q rest ih =>
    intro v hv
    simp only [goQueue]
    rw [hf _ _ hv, ih _ (hpres _ _ hv)]

theorem searchAtDepth_bounded_eq_unbounded (graph : Graph) (K Kneg : Int)
    (hKneg : Kneg ≤ 0) :
    ∀ (fuel : Nat) (targetNodeName : String) (c : Int) (v : List String),
      c + (unvisited graph v : Int) ≤ K →
      searchAtDepth fuel graph targetNodeName c K v =
        searchAtDepth fuel graph targetNodeName c Kneg v := by
  intro fuel
  induction fuel with
  | zero => intro t c v _; rfl
  | succ fuel ih =>
    intro t c v hinv
    have hguardneg : ¬ (Kneg > 0 ∧ c ≥ Kneg) := by omega
    by_cases hguard : K > 0 ∧ c ≥ K
    · have hU : unvisited graph v = 0 := by omega
      have hall : ∀ d ∈ findDirectDependents graph t,
          normalizeNodeName d ∈ v := fun d hd =>
        unvisited_eq_zero_mem graph v hU _ (findDirectDependents_src graph t d hd)
      rw [show searchAtDepth (fuel + 1) graph t c K v = (v, []) by
        simp [searchAtDepth, hguard]]
      simp only [searchAtDepth, if_neg hguardneg]
      rw [markDependents_all_visited _ _ _ hall]
      simp [goQueue]
    · simp only [searchAtDepth, if_neg hguard, if_neg hguardneg]
      have hdeps : ∀ d ∈ findDirectDependents graph t,
          normalizeNodeName d ∈ sourceNames graph :=
        findDirectDependents_src graph t
      have hcount := markDependents_unvisited graph (c + 1)
        (findDirectDependents graph t) v hdeps
      by_cases hq : (markDependents (findDirectDependents graph t) (c + 1) v).2.2 = []
      · rw [hq]
        simp [goQueue]
      · have hlen : 1 ≤ (markDependents (findDirectDependents graph t)
            (c + 1) v).2.2.length :=
          List.length_pos.2 hq
        have hmain : goQueue
            (fun t2 v2 => searchAtDepth fuel graph t2 (c + 1) K v2)
            (markDependents (findDirectDependents graph t) (c + 1) v).2.2
            (markDependents (findDirectDependents graph t) (c + 1) v).1 =
            goQueue
            (fun t2 v2 => searchAtDepth fuel graph t2 (c + 1) Kneg v2)
            (markDependents (findDirectDependents graph t) (c + 1) v).2.2
            (markDependents (findDirectDependents graph t) (c + 1) v).1 := by
          apply goQueue_eq_of_inv _ _
            (fun v2 => c + 1 + (unvisited graph v2 : Int) ≤ K)
          · intro t2 v2 hv2
            exact ih t2 (c + 1) v2 hv2
          · intro t2 v2 hv2
            have hsub := unvisited_le_of_subset graph v2
              (searchAtDepth fuel graph t2 (c + 1) Kneg v2).1
              (searchAtDepth_visited_mono fuel graph t2 (c + 1) Kneg v2)
            omega
          · omega
        rw [hmain]

theorem unvisited_le_nodes (graph : Graph)
    (hwf : ∀ e ∈ graph.edges,
      normalizeNodeName e.src ∈ graph.nodes.map normalizeNodeName)
    (v : List String) : unvisited graph v ≤ graph.nodes.length := by
  have hsub : (sourceNames graph).toFinset ⊆
      (graph.nodes.map normalizeNodeName).toFinset := by
    intro x hx
    rw [List.mem_toFinset] at hx ⊢
    obtain ⟨e, he, hx2⟩ := List.mem_map.1 hx
    exact hx2 ▸ hwf e he
  calc unvisited graph v ≤ (sourceNames graph).toFinset.card :=
        Finset.card_le_card Finset.sdiff_subset
    _ ≤ (graph.nodes.map normalizeNodeName).toFinset.card :=
        Finset.card_le_card hsub
    _ ≤ (graph.nodes.map normalizeNodeName).length := List.toFinset_card_le _
    _ = graph.nodes.length := List.length_map _ _

/-- C7: on a well-formed graph, whose edge sources are all nodes, a
non-positive depth bound produces exactly the same record sequence as any
positive bound at least as large as the number of nodes: the recursion can
never reach a depth at which such a bound cuts anything off. -/
theorem C7_nonpositive_bound_equals_large_bound (graph : Graph)
    (targetNodeName : String) (K Kneg : Int)
    (hwf : ∀ e ∈ graph.edges,
      normalizeNodeName e.src ∈ graph.nodes.map normalizeNodeName)
    (hKneg : Kneg ≤ 0) (_hKpos : 0 < K)
    (hK : (graph.nodes.length : Int) ≤ K) :
    findDependentsWithDepth graph targetNodeName Kneg =
      findDependentsWithDepth graph targetNodeName K := by
  unfold findDependentsWithDepth
  rw [searchAtDepth_bounded_eq_unbounded graph K Kneg hKneg (searchFuel graph)
    targetNodeName 0 (initialVisited targetNodeName) ?_]
  have := unvisited_le_nodes graph hwf (initialVisited targetNodeName)
  omega

/-- Witness for C7: on bugGraph1, which has five nodes and well-formed
edges, the bound -1 and the bound 5 return the same records. -/
theorem C7_witness :
    findDependentsWithDepth bugGraph1 "T" (-1) =
      findDependentsWithDepth bugGraph1 "T" 5 :=
  C7_nonpositive_bound_equals_large_bound bugGraph1 "T" 5 (-1) (by decide)
    (by decide) (by decide) (by decide)

theorem fddLoop_complete (targetNodeName : String) :
    ∀ (edges : List Edge) (visited : List String),
      ∀ e ∈ edges, normalizeNodeName e.dst = targetNodeName →
        normalizeNodeName e.src ∈ visited ∨
          normalizeNodeName e.src ∈
            (fddLoop edges targetNodeName visited).map normalizeNodeName := by
  intro edges
  induction edges with
  | nil => intro v e he; simp at he
  | cons e0 rest ih =>
    intro v e he hdst
    rcases List.mem_cons.1 he with he | he
    · subst he
      by_cases hs : normalizeNodeName e.src ∈ v
      · exact Or.inl hs
      · right
        simp only [fddLoop, if_pos hdst, if_neg hs, List.map_cons]
        exact List.mem_cons_self _ _
    · by_cases hd0 : normalizeNodeName e0.dst = targetNodeName
      · by_cases hs0 : normalizeNodeName e0.src ∈ v
        · simp only [fddLoop, if_pos hd0, if_pos hs0]
          exact ih v e he hdst
        · simp only [fddLoop, if_pos hd0, if_neg hs0, List.map_cons]
          rcases ih (normalizeNodeName e0.src :: v) e he hdst with h | h
          · rcases List.mem_cons.1 h with h | h
            · right; rw [h]; exact List.mem_cons_self _ _
            · exact Or.inl h
          · right; exact List.mem_cons_of_mem _ h
      · simp only [fddLoop, if_neg hd0]
        exact ih v e he hdst

theorem fddLoop_nodup_fresh (targetNodeName : String) :
    ∀ (edges : List Edge) (visited : List String),
      ((fddLoop edges targetNodeName visited).map normalizeNodeName).Nodup ∧
        ∀ x ∈ (fddLoop edges targetNodeName visited).map normalizeNodeName,
          x ∉ visited := by
  intro edges
  induction edges with
  | nil => intro v; simp [fddLoop]
  | cons e rest ih =>
    intro v
    by_cases hd : normalizeNodeName e.dst = targetNodeName
    · by_cases hs : normalizeNodeName e.src ∈ v
      · simp only [fddLoop, if_pos hd, if_pos hs]
        exact ih v
      · simp only [fddLoop, if_pos hd, if_neg hs, List.map_cons, List.nodup_cons]
        obtain ⟨hnd, hfr⟩ := ih (normalizeNodeName e.src :: v)
        refine ⟨⟨fun hmem => ?_, hnd⟩, ?_⟩
        · exact hfr _ hmem (List.mem_cons_self _ _)
        · intro x hx
          rcases List.mem_cons.1 hx with hx | hx
          · rw [hx]; exact hs
          · intro hxv
            exact hfr x hx (List.mem_cons_of_mem _ hxv)
    · simp only [fddLoop, if_neg hd]
      exact ih v

theorem fddLoop_sublist (targetNodeName : String) :
    ∀ (edges : List Edge) (visited : List String),
      (fddLoop edges targetNodeName visited).Sublist
        ((edges.filter (fun e => decide (normalizeNodeName e.dst =
          targetNodeName))).map (fun e => e.src)) := by
  intro edges
  induction edges with
  | nil => intro v; simp [fddLoop]
  | cons e rest ih =>
    intro v
    by_cases hd : normalizeNodeName e.dst = targetNodeName
    · by_cases hs : normalizeNodeName e.src ∈ v
      · simp only [fddLoop, if_pos hd, if_pos hs, List.filter_cons,
          decide_eq_true hd, if_pos, List.map_cons]
        exact (ih v).cons _
      · simp only [fddLoop, if_pos hd, if_neg hs, List.filter_cons,
          decide_eq_true hd, if_pos, List.map_cons]
        exact (ih _).cons₂ _
    · have hdec : (decide (normalizeNodeName e.dst = targetNodeName)) = false :=
        decide_eq_false hd
      simp only [fddLoop, if_neg hd, List.filter_cons, hdec]
      exact ih v

theorem fddLoop_eq_keepFirst (targetNodeName : String) :
    ∀ (edges : List Edge) (visited : List String),
      fddLoop edges targetNodeName visited =
        keepFirstByCanonical ((edges.filter (fun e => decide
          (normalizeNodeName e.dst = targetNodeName))).map (fun e => e.src))
          visited := by
  intro edges
  induction edges with
  | nil => intro v; rfl
  | cons e rest ih =>
    intro v
    by_cases hd : normalizeNodeName e.dst = targetNodeName
    · simp only [fddLoop, if_pos hd, List.filter_cons, decide_eq_true hd,
        if_pos, List.map_cons, keepFirstByCanonical]
      by_cases hs : normalizeNodeName e.src ∈ v
      · simp only [if_pos hs]
        exact ih v
      · simp only [if_neg hs]
        exact congrArg _ (ih _)
    · have hdec : (decide (normalizeNodeName e.dst = targetNodeName)) = false :=
        decide_eq_false hd
      simp only [fddLoop, if_neg hd, List.filter_cons, hdec]
      exact ih v

theorem fddLoop_append_dup (targetNodeName : String) (enew : Edge) :
    ∀ (edges : List Edge) (visited : List String),
      (normalizeNodeName enew.dst = targetNodeName →
        normalizeNodeName enew.src ∈ visited ∨
          ∃ e2 ∈ edges, normalizeNodeName e2.dst = targetNodeName ∧
            normalizeNodeName e2.src = normalizeNodeName enew.src) →
      fddLoop (edges ++ [enew]) targetNodeName visited =
        fddLoop edges targetNodeName visited := by
  intro edges
  induction edges with
  | nil =>
    intro v h
    simp only [List.nil_append]
    by_cases hd : normalizeNodeName enew.dst = targetNodeName
    · rcases h hd with hv | ⟨e2, he2, _⟩
      · simp [fddLoop, hd, hv]
      · simp at he2
    · simp [fddLoop, hd]
  | cons e0 rest ih =>
    intro v h
    simp only [List.cons_append]
    by_cases hd0 : normalizeNodeName e0.dst = targetNodeName
    · by_cases hs0 : normalizeNodeName e0.src ∈ v
      · simp only [fddLoop, if_pos hd0, if_pos hs0]
        apply ih
        intro hd
        rcases h hd with hv | ⟨e2, he2, hdst2, hsrc2⟩
        · exact Or.inl hv
        · rcases List.mem_cons.1 he2 with he2 | he2
          · subst he2
            exact Or.inl (hsrc2 ▸ hs0)
          · exact Or.inr ⟨e2, he2, hdst2, hsrc2⟩
      · simp only [fddLoop, if_pos hd0, if_neg hs0]
        rw [ih (normalizeNodeName e0.src :: v) ?_]
        intro hd
        rcases h hd with hv | ⟨e2, he2, hdst2, hsrc2⟩
        · exact Or.inl (List.mem_cons_of_mem _ hv)
        · rcases List.mem_cons.1 he2 with he2 | he2
          · subst he2
            exact Or.inl (hsrc2 ▸ List.mem_cons_self _ _)
          · exact Or.inr ⟨e2, he2, hdst2, hsrc2⟩
    · simp only [fddLoop, if_neg hd0]
      apply ih
      intro hd
      rcases h hd with hv | ⟨e2, he2, hdst2, hsrc2⟩
      · exact Or.inl hv
      · rcases List.mem_cons.1 he2 with he2 | he2
        · subst he2
          exact absurd hdst2 hd0
        · exact Or.inr ⟨e2, he2, hdst2, hsrc2⟩

theorem searchAtDepth_congr_fdd (g1 g2 : Graph)
    (hfdd : ∀ t, findDirectDependents g1 t = findDirectDependents g2 t) :
    ∀ (fuel : Nat) (t : String) (c K : Int) (v : List String),
      searchAtDepth fuel g1 t c K v = searchAtDepth fuel g2 t c K v := by
  intro fuel
  induction fuel with
  | zero => intro t c K v; rfl
  | succ fuel ih =>
    intro t c K v
    by_cases hguard : K > 0 ∧ c ≥ K
    · simp [searchAtDepth, hguard]
    · simp only [searchAtDepth, if_neg hguard, hfdd t]
      rw [goQueue_eq_of_inv
        (fun t2 v2 => searchAtDepth fuel g1 t2 (c + 1) K v2)
        (fun t2 v2 => searchAtDepth fuel g2 t2 (c + 1) K v2)
        (fun _ => True) (fun t2 v2 _ => ih t2 (c + 1) K v2)
        (fun _ _ _ => trivial) _ _ trivial]

theorem dedup_length_eq_toFinset_card (l : List String) :
    l.dedup.length = l.toFinset.card := by
  rw [Finset.card, List.toFinset_val]
  simp

theorem searchFuel_append_dup (graph : Graph) (e : Edge)
    (he : e ∈ graph.edges) :
    searchFuel ⟨graph.nodes, graph.edges ++ [e]⟩ = searchFuel graph := by
  unfold searchFuel sourceNames
  rw [dedup_length_eq_toFinset_card, dedup_length_eq_toFinset_card]
  have h1 : ((graph.edges ++ [e]).map
      (fun e2 => normalizeNodeName e2.src)).toFinset =
      (graph.edges.map (fun e2 => normalizeNodeName e2.src)).toFinset := by
    apply List.toFinset.ext
    intro x
    simp only [List.map_append, List.mem_append, List.map_cons, List.map_nil,
      List.mem_singleton]
    constructor
    · rintro (hx | hx)
      · exact hx
      · exact hx ▸ List.mem_map.2 ⟨e, he, rfl⟩
    · exact Or.inl
  rw [h1]

/-- C10: the literal sentinel name RPM-Packages is unconditionally part of
the initial visited set of findDependentsWithDepth, so no record ever
carries it, for every graph, target and bound; in particular even on a graph
where RPM-Packages is an ordinary node with an edge onto the target, the
search over that graph returns no record at all for it. -/
theorem C10_sentinel_unconditionally_excluded (graph : Graph)
    (targetNodeName : String) (maxDepth : Int) :
    "RPM-Packages" ∈ initialVisited targetNodeName ∧
    (∀ r ∈ findDependentsWithDepth graph targetNodeName maxDepth,
      r.NodeName ≠ "RPM-Packages") ∧
    findDependentsWithDepth
      ⟨["RPM-Packages", "T"], [⟨"RPM-Packages", "T"⟩]⟩ "T" (-1) = [] := by
  refine ⟨by simp [initialVisited], ?_, by decide⟩
  intro r hr he
  exact (searchAtDepth_fresh _ _ _ _ _ _ r hr).1 (by simp [initialVisited, he])

/-- C8 counterexample: the claim states that duplicates across multiple
edges with the same source and destination are preserved by the Accessor,
but on dupGraph, which declares the edge from A to T twice, the two matching
edges produce a single returned source: findDirectDependents itself
deduplicates through its local visited map. -/
theorem C8_counterexample_accessor_dedups :
    (dupGraph.edges.filter
      (fun e => decide (normalizeNodeName e.dst = "T"))).length = 2 ∧
    findDirectDependents dupGraph "T" = ["A"] := by
  decide

/-- C8 amended: findDirectDependents returns, for each distinct canonical
source among the edges whose destination canonicalizes to the node name, the
raw source spelling of the first such edge, in edge-declaration order — the
Accessor itself deduplicates by canonical source name rather than leaving
duplicates to the caller — and adding a duplicate of an existing edge to the
graph does not change the result of a search. -/
theorem C8_accessor_characterization (graph : Graph) (targetNodeName : String)
    (maxDepth : Int) (e : Edge) (he : e ∈ graph.edges) :
    findDirectDependents graph targetNodeName =
      keepFirstByCanonical ((graph.edges.filter
        (fun e2 => decide (normalizeNodeName e2.dst = targetNodeName))).map
        (fun e2 => e2.src)) [] ∧
    (∀ x ∈ findDirectDependents graph targetNodeName,
      ∃ e2 ∈ graph.edges, x = e2.src ∧
        normalizeNodeName e2.dst = targetNodeName) ∧
    (∀ e2 ∈ graph.edges, normalizeNodeName e2.dst = targetNodeName →
      normalizeNodeName e2.src ∈
        (findDirectDependents graph targetNodeName).map normalizeNodeName) ∧
    ((findDirectDependents graph targetNodeName).map normalizeNodeName).Nodup ∧
    (findDirectDependents graph targetNodeName).Sublist
      ((graph.edges.filter (fun e2 => decide (normalizeNodeName e2.dst =
        targetNodeName))).map (fun e2 => e2.src)) ∧
    findDependentsWithDepth ⟨graph.nodes, graph.edges ++ [e]⟩ targetNodeName
        maxDepth =
      findDependentsWithDepth graph targetNodeName maxDepth := by
  have hfdd : ∀ t, findDirectDependents ⟨graph.nodes, graph.edges ++ [e]⟩ t =
      findDirectDependents graph t := by
    intro t
    show fddLoop (graph.edges ++ [e]) t [] = fddLoop graph.edges t []
    apply fddLoop_append_dup
    intro hd
    exact Or.inr ⟨e, he, hd, rfl⟩
  refine ⟨fddLoop_eq_keepFirst targetNodeName graph.edges [],
    fun x hx => fddLoop_src targetNodeName graph.edges [] x hx, ?_, ?_,
    fddLoop_sublist targetNodeName graph.edges [], ?_⟩
  · intro e2 he2 hdst
    rcases fddLoop_complete targetNodeName graph.edges [] e2 he2 hdst with h | h
    · simp at h
    · exact h
  · exact (fddLoop_nodup_fresh targetNodeName graph.edges []).1
  · show (searchAtDepth (searchFuel ⟨graph.nodes, graph.edges ++ [e]⟩)
        ⟨graph.nodes, graph.edges ++ [e]⟩ targetNodeName 0 maxDepth
        (initialVisited targetNodeName)).2 = _
    rw [searchFuel_append_dup graph e he,
      searchAtDepth_congr_fdd _ _ hfdd (searchFuel graph) targetNodeName 0
        maxDepth (initialVisited targetNodeName)]
    rfl

/-- Witness for C8 amended at bugGraph1 with the duplicate of its first
edge: the search result is unchanged. -/
theorem C8_witness :
    findDependentsWithDepth
        ⟨bugGraph1.nodes, bugGraph1.edges ++ [⟨"A", "T"⟩]⟩ "T" (-1) =
      findDependentsWithDepth bugGraph1 "T" (-1) :=
  (C8_accessor_characterization bugGraph1 "T" (-1) ⟨"A", "T"⟩
    (by decide)).2.2.2.2.2

theorem goQueue_records_prop (P : DependentWithDepth → Prop)
    (f : String → List String → List String × List DependentWithDepth)
    (hf : ∀ t v, ∀ r ∈ (f t v).2, P r) :
    ∀ queue visited, ∀ r ∈ (goQueue f queue visited).2, P r := by
  intro queue
  induction queue with
  | nil => intro v r hr; simp [goQueue] at hr
  | cons q rest ih =>
    intro v r hr
    simp only [goQueue, List.mem_append] at hr
    rcases hr with hr | hr
    · exact hf _ _ r hr
    · exact ih _ r hr

theorem searchAtDepth_depth_lb :
    ∀ (fuel : Nat) (graph : Graph) (t : String) (c K : Int) (v : List String),
      ∀ r ∈ (searchAtDepth fuel graph t c K v).2, c + 1 ≤ r.Depth := by
  intro fuel
  induction fuel with
  | zero => intro g t c K v r hr; simp [searchAtDepth] at hr
  | succ fuel ih =>
    intro g t c K v r hr
    by_cases hguard : K > 0 ∧ c ≥ K
    · simp [searchAtDepth, hguard] at hr
    · simp only [searchAtDepth, if_neg hguard, List.mem_append] at hr
      rcases hr with hr | hr
      · exact le_of_eq (markDependents_records _ _ _ r hr).2.2.symm
      · have := goQueue_records_prop (fun r2 => c + 1 + 1 ≤ r2.Depth) _
          (fun t2 v2 => ih g t2 (c + 1) K v2) _ _ r hr
        omega

theorem records_depth_pos (graph : Graph) (targetNodeName : String)
    (maxDepth : Int) :
    ∀ r ∈ findDependentsWithDepth graph targetNodeName maxDepth,
      1 ≤ r.Depth := by
  intro r hr
  have := searchAtDepth_depth_lb (searchFuel graph) graph targetNodeName 0
    maxDepth (initialVisited targetNodeName) r hr
  omega

theorem actualFold_init_le (records : List DependentWithDepth) :
    ∀ acc : Int, acc ≤ records.foldl
      (fun acc dep => if dep.Depth > acc then dep.Depth else acc) acc := by
  induction records with
  | nil => intro acc; simp
  | cons r rest ih =>
    intro acc
    simp only [List.foldl_cons]
    by_cases h : r.Depth > acc
    · simp only [if_pos h]
      exact le_trans (le_of_lt h) (ih r.Depth)
    · simp only [if_neg h]
      exact ih acc

theorem le_actualFold (records : List DependentWithDepth) :
    ∀ acc : Int, ∀ r ∈ records, r.Depth ≤ records.foldl
      (fun acc dep => if dep.Depth > acc then dep.Depth else acc) acc := by
  induction records with
  | nil => intro acc r hr; simp at hr
  | cons r0 rest ih =>
    intro acc r hr
    simp only [List.foldl_cons]
    rcases List.mem_cons.1 hr with hr | hr
    · subst hr
      refine le_trans ?_ (actualFold_init_le rest _)
      by_cases h : r.Depth > acc
      · simp [if_pos h]
      · simp only [if_neg h]
        omega
    · exact ih _ r hr

theorem actualMaxDepth_nonneg (records : List DependentWithDepth) :
    0 ≤ actualMaxDepth records :=
  actualFold_init_le records 0

theorem le_actualMaxDepth (records : List DependentWithDepth) :
    ∀ r ∈ records, r.Depth ≤ actualMaxDepth records :=
  le_actualFold records 0

theorem numberFrom_length (names : List String) :
    ∀ i, (numberFrom i names).length = names.length := by
  induction names with
  | nil => intro i; rfl
  | cons n rest ih => intro i; simp [numberFrom, ih]

theorem numberFrom_map_fst (names : List String) :
    ∀ i, (numberFrom i names).map Prod.fst = List.range' i names.length := by
  induction names with
  | nil => intro i; rfl
  | cons n rest ih =>
    intro i
    simp [numberFrom, ih, List.range'_succ]

theorem numberFrom_map_snd (names : List String) :
    ∀ i, (numberFrom i names).map Prod.snd = names := by
  induction names with
  | nil => intro i; rfl
  | cons n rest ih => intro i; simp [numberFrom, ih]

theorem findDependentsWithDepth_of_no_incoming (graph : Graph)
    (targetNodeName : String) (maxDepth : Int)
    (h : findDirectDependents graph targetNodeName = []) :
    findDependentsWithDepth graph targetNodeName maxDepth = [] := by
  unfold findDependentsWithDepth
  obtain ⟨n, hn⟩ : ∃ n, searchFuel graph = n + 1 := ⟨_, rfl⟩
  rw [hn]
  by_cases hguard : maxDepth > 0 ∧ (0 : Int) ≥ maxDepth
  · simp [searchAtDepth, hguard]
  · simp only [searchAtDepth, if_neg hguard, h]
    simp [markDependents, goQueue]

theorem reportGroups_pairwise (records : List DependentWithDepth) :
    List.Pairwise (fun a b => a.1 < b.1) (reportGroups records) := by
  unfold reportGroups
  rw [List.pairwise_filterMap, List.pairwise_map]
  apply List.Pairwise.imp ?_ (List.pairwise_lt_range _)
  intro i j hij x hx y hy
  simp only [Option.mem_def] at hx hy
  by_cases hi : (records.filter
      (fun r => decide (r.Depth = (i : Int) + 1))).isEmpty
  · rw [if_pos hi] at hx
    exact absurd hx.symm (by simp)
  · rw [if_neg hi] at hx
    by_cases hj : (records.filter
        (fun r => decide (r.Depth = (j : Int) + 1))).isEmpty
    · rw [if_pos hj] at hy
      exact absurd hy.symm (by simp)
    · rw [if_neg hj] at hy
      have hx1 := congrArg Prod.fst (Option.some_inj.1 hx)
      have hy1 := congrArg Prod.fst (Option.some_inj.1 hy)
      simp only at hx1 hy1
      rw [← hx1, ← hy1]
      omega

theorem reportGroups_complete (records : List DependentWithDepth)
    (r : DependentWithDepth) (hr : r ∈ records) (hd : 1 ≤ r.Depth) :
    ∃ gp ∈ reportGroups records, gp.1 = r.Depth := by
  have hle := le_actualMaxDepth records r hr
  have hnn := actualMaxDepth_nonneg records
  refine ⟨(r.Depth,
    (records.filter (fun x => decide (x.Depth = r.Depth))).length,
    numberFrom 1 ((records.filter (fun x => decide (x.Depth = r.Depth))).map
      (fun x => x.NodeName))), ?_, rfl⟩
  unfold reportGroups
  rw [List.mem_filterMap]
  refine ⟨r.Depth, ?_, ?_⟩
  · rw [List.mem_map]
    refine ⟨(r.Depth - 1).toNat, ?_, by omega⟩
    rw [List.mem_range]
    omega
  · have hne : ¬ (records.filter
        (fun x => decide (x.Depth = r.Depth))).isEmpty = true := by
      intro hempty
      have hmem : r ∈ records.filter (fun x => decide (x.Depth = r.Depth)) :=
        List.mem_filter.2 ⟨hr, by simp⟩
      rw [List.isEmpty_iff.1 hempty] at hmem
      simp at hmem
    simp only [if_neg hne]

/-- C9: for every graph, target and bound, the report built from the search
records lists its depth groups in strictly increasing depth order with every
group depth at least 1, omits exactly the empty depths, heads each group
with its depth and its member count, numbers the members from 1 upward in
the order the records carry them, and produces no group at all when the
target has no incoming edge. -/
theorem C9_report_depth_groups (graph : Graph) (targetNodeName : String)
    (maxDepth : Int) :
    List.Pairwise (fun a b => a.1 < b.1)
      (reportGroups (findDependentsWithDepth graph targetNodeName maxDepth)) ∧
    (∀ gp ∈ reportGroups (findDependentsWithDepth graph targetNodeName
        maxDepth),
      1 ≤ gp.1 ∧ gp.2.2 ≠ [] ∧ gp.2.1 = gp.2.2.length ∧
        gp.2.2.map Prod.fst = List.range' 1 gp.2.1 ∧
        gp.2.2.map Prod.snd =
          ((findDependentsWithDepth graph targetNodeName maxDepth).filter
            (fun r => decide (r.Depth = gp.1))).map (fun r => r.NodeName)) ∧
    (∀ r ∈ findDependentsWithDepth graph targetNodeName maxDepth,
      ∃ gp ∈ reportGroups (findDependentsWithDepth graph targetNodeName
        maxDepth), gp.1 = r.Depth) ∧
    (findDirectDependents graph targetNodeName = [] →
      reportGroups (findDependentsWithDepth graph targetNodeName maxDepth) =
        []) := by
  refine ⟨reportGroups_pairwise _, ?_, ?_, ?_⟩
  · intro gp hgp
    unfold reportGroups at hgp
    rw [List.mem_filterMap] at hgp
    obtain ⟨d, hdbase, hF⟩ := hgp
    simp only at hF
    by_cases hne : ((findDependentsWithDepth graph targetNodeName
        maxDepth).filter (fun r => decide (r.Depth = d))).isEmpty
    · rw [if_pos hne] at hF
      exact absurd hF (by simp)
    · rw [if_neg hne] at hF
      have htuple := Option.some_inj.1 hF
      obtain ⟨i, _, hid⟩ := List.mem_map.1 hdbase
      have hdeps : (findDependentsWithDepth graph targetNodeName
          maxDepth).filter (fun r => decide (r.Depth = d)) ≠ [] := by
        intro hnil
        rw [hnil] at hne
        simp at hne
      have h1 : gp.1 = d := by rw [← htuple]
      have h2 : gp.2.1 = ((findDependentsWithDepth graph targetNodeName
          maxDepth).filter (fun r => decide (r.Depth = d))).length := by
        rw [← htuple]
      have h3 : gp.2.2 = numberFrom 1 (((findDependentsWithDepth graph
          targetNodeName maxDepth).filter
            (fun r => decide (r.Depth = d))).map (fun r => r.NodeName)) := by
        rw [← htuple]
      refine ⟨by rw [h1]; omega, ?_, ?_, ?_, ?_⟩
      · rw [h3]
        intro hnil
        have hlen := congrArg List.length hnil
        rw [numberFrom_length, List.length_map, List.length_nil] at hlen
        exact hdeps (List.length_eq_zero.1 hlen)
      · rw [h2, h3, numberFrom_length, List.length_map]
      · rw [h3, h2, numberFrom_map_fst, List.length_map]
      · rw [h3, numberFrom_map_snd, h1]
  · intro r hr
    exact reportGroups_complete _ r hr (records_depth_pos _ _ _ r hr)
  · intro h
    rw [findDependentsWithDepth_of_no_incoming _ _ _ h]
    rfl

/-- Witness for C9: the report structure properties evaluated on bugGraph1
with target T and unbounded depth. -/
theorem C9_witness :
    List.Pairwise (fun a b => a.1 < b.1)
      (reportGroups (findDependentsWithDepth bugGraph1 "T" (-1))) :=
  (C9_report_depth_groups bugGraph1 "T" (-1)).1

theorem searchAtDepth_fuel_irrelevant (graph : Graph) :
    ∀ (fuel1 fuel2 : Nat) (t : String) (c K : Int) (v : List String),
      unvisited graph v < fuel1 → unvisited graph v < fuel2 →
      searchAtDepth fuel1 graph t c K v = searchAtDepth fuel2 graph t c K v := by
  intro fuel1
  induction fuel1 with
  | zero => intro fuel2 t c K v h1 _; omega
  | succ fuel1 ih =>
    intro fuel2 t c K v h1 h2
    match fuel2 with
    | 0 => omega
    | fuel2 + 1 =>
      by_cases hguard : K > 0 ∧ c ≥ K
      · simp [searchAtDepth, hguard]
      · simp only [searchAtDepth, if_neg hguard]
        have hdeps : ∀ d ∈ findDirectDependents graph t,
            normalizeNodeName d ∈ sourceNames graph :=
          findDirectDependents_src graph t
        have hcount := markDependents_unvisited graph (c + 1)
          (findDirectDependents graph t) v hdeps
        by_cases hq : (markDependents (findDirectDependents graph t)
            (c + 1) v).2.2 = []
        · rw [hq]
          simp [goQueue]
        · have hlen : 1 ≤ (markDependents (findDirectDependents graph t)
              (c + 1) v).2.2.length :=
            List.length_pos.2 hq
          rw [goQueue_eq_of_inv
            (fun t2 v2 => searchAtDepth fuel1 graph t2 (c + 1) K v2)
            (fun t2 v2 => searchAtDepth fuel2 graph t2 (c + 1) K v2)
            (fun v2 => unvisited graph v2 < fuel1 ∧ unvisited graph v2 < fuel2)
            (fun t2 v2 hv2 => ih fuel2 t2 (c + 1) K v2 hv2.1 hv2.2)
            ?_ _ _ ?_]
          · intro t2 v2 hv2
            have hsub := unvisited_le_of_subset graph v2
              (searchAtDepth fuel2 graph t2 (c + 1) K v2).1
              (searchAtDepth_visited_mono fuel2 graph t2 (c + 1) K v2)
            show unvisited graph
                (searchAtDepth fuel2 graph t2 (c + 1) K v2).1 < fuel1 ∧
              unvisited graph
                (searchAtDepth fuel2 graph t2 (c + 1) K v2).1 < fuel2
            omega
          · omega

/-- The fuel findDependentsWithDepth runs searchAtDepth with strictly
dominates the unvisited measure from every visited set, so by
searchAtDepth_fuel_irrelevant it never cuts a trace short: the model
computes exactly what the terminating source recursion computes. -/
theorem searchFuel_sufficient (graph : Graph) (v : List String) :
    unvisited graph v < searchFuel graph := by
  have h1 : unvisited graph v ≤ (sourceNames graph).toFinset.card :=
    Finset.card_le_card Finset.sdiff_subset
  have h2 : (sourceNames graph).toFinset.card =
      (sourceNames graph).dedup.length :=
    (dedup_length_eq_toFinset_card _).symm
  unfold searchFuel
  omega

/-- Witness for C4: the record names on bugGraph2 are pairwise distinct. -/
theorem C4_witness :
    ((findDependentsWithDepth bugGraph2 "T" (-1)).map
      (fun r => r.NodeName)).Nodup :=
  C4_no_duplicate_names bugGraph2 "T" (-1)

/-- Witness for C5: both seeds are in the initial visited set for target T. -/
theorem C5_witness :
    "RPM-Packages" ∈ initialVisited "T" ∧
    normalizeNodeName "T" ∈ initialVisited "T" :=
  ⟨(C5_target_and_sentinel_never_recorded bugGraph3 "T" (-1)).1,
   (C5_target_and_sentinel_never_recorded bugGraph3 "T" (-1)).2.1⟩

/-- Witness for C6: searching bugGraph1 for the absent package Z fails with
the not-found message. -/
theorem C6_witness :
    runCore bugGraph1 "Z" (-1) = Except.error
      ("Z" ++ " package is Not Found in your SBOM DOT File.") :=
  (C6_not_found_is_only_core_error bugGraph1 "Z" (-1)).2.1 (by decide)

/-- Witness for C10: a graph in which RPM-Packages is an ordinary dependent
of the target still yields an empty result. -/
theorem C10_witness :
    findDependentsWithDepth
      ⟨["RPM-Packages", "T"], [⟨"RPM-Packages", "T"⟩]⟩ "T" (-1) = [] :=
  (C10_sentinel_unconditionally_excluded bugGraph1 "T" (-1)).2.2

end PoC1
